import Mathlib

/-!
Verification of the `apk` package's binary-XML encoder and APK writer
(`binary_xml.go`, `writer.go`) against its specification.

The Go code is shallowly embedded: byte slices become `List Nat` (each
element a byte value), Go strings become Lean `String` (both are sequences
of Unicode code points; Go's `len` is modelled by the UTF-8 byte count
`goLen`), machine integers become `Nat`/`Int` with explicit `% 2^w` where
overflow matters, and fallible functions return `Except`/`Option`.
-/

/-- `appendU16` from binary_xml.go: append the two little-endian bytes of
`uint16(v)`; `byte v = v % 256`, `byte (v >> 8) = v / 256 % 256`. -/
def appendU16 (b : List Nat) (v : Nat) : List Nat :=
  b ++ [v % 256, v / 256 % 256]

/-- `appendU32` from binary_xml.go: append the four little-endian bytes of
`uint32(v)`. -/
def appendU32 (b : List Nat) (v : Nat) : List Nat :=
  b ++ [v % 256, v / 256 % 256, v / 65536 % 256, v / 16777216 % 256]

/-- `appendHeader` from binary_xml.go: chunk type, header size 8, total size
(written as `uint16(size)` then a zero u16). -/
def appendHeader (b : List Nat) (typ : Nat) (size : Nat) : List Nat :=
  appendU16 (appendU16 (appendU16 (appendU16 b typ) 8) size) 0

/-- Value of four bytes read as a little-endian 32-bit integer. -/
def leU32 (b0 b1 b2 b3 : Nat) : Nat :=
  b0 + 256 * b1 + 65536 * b2 + 16777216 * b3

/-- Number of UTF-8 bytes Go uses for one rune; `goLen` models Go's `len`
on a string. -/
def utf8Size (c : Char) : Nat :=
  if c.toNat < 128 then 1
  else if c.toNat < 2048 then 2
  else if c.toNat < 65536 then 3
  else 4

/-- Go `len(str)`: the UTF-8 byte length of the string. -/
def goLen (s : String) : Nat := (s.data.map utf8Size).sum

/-- UTF-16 code units of one rune, as produced by Go's `utf16.Encode`
(BMP runes are one unit; others a surrogate pair). -/
def utf16Units (c : Char) : List Nat :=
  if c.toNat < 65536 then [c.toNat]
  else [55296 + (c.toNat - 65536) / 1024, 56320 + (c.toNat - 65536) % 1024]

/-- Go `utf16.Encode([]rune(s))`. -/
def goUtf16 (s : String) : List Nat := (s.data.map utf16Units).flatten

/-- Length of a string counted in UTF-16 code units. -/
def goUtf16Len (s : String) : Nat := (goUtf16 s).length

/-- `bstring` from binary_xml.go: pool index, string value, and the
precomputed encoding (2-byte length, UTF-16LE units, 2-byte zero). -/
structure BString where
  ind : Nat
  str : String
  enc : List Nat
  deriving DecidableEq, Repr

/-- The `res.enc` computation in `binStringPool.get`: `appendU16(nil,
uint16(len(str)))`, then each UTF-16 code unit, then a zero u16.  Note the
length field is Go's `len(str)`, the UTF-8 byte count. -/
def encodeStr (s : String) : List Nat :=
  appendU16 ((goUtf16 s).foldl appendU16 (appendU16 [] (goLen s))) 0

/-- The guard in `binStringPool.get`: `len(str)>>16 > 0` makes the function
panic ("string lengths over 1<<15 not yet supported"). -/
def panicCond (s : String) : Bool := decide (0 < goLen s >>> 16)

/-- `binStringPool.get`: return the existing entry for `str`, or append a
new entry whose index is the current pool length.  The Go pool keeps a
`map[string]*bstring` alongside the slice; the map always holds exactly the
strings of the slice, so it is modelled by `find?` on the slice.  This
version is total: the source's panic on oversized strings (`panicCond`) is
made explicit in `poolGetP` below, which is the model to use wherever the
interned strings are not known to be short. -/
def poolGet (p : List BString) (s : String) : List BString × BString :=
  match p.find? (fun b => b.str == s) with
  | some b => (p, b)
  | none =>
    let b : BString := { ind := p.length, str := s, enc := encodeStr s }
    (p ++ [b], b)

/-- A pool built by a sequence of `get` calls starting from the empty pool. -/
def poolOfList (xs : List String) : List BString :=
  xs.foldl (fun p x => (poolGet p x).1) []

/-- `binStringPool.size`: `stringPoolPreamble (28) + 4*len(p.s) + strLens + 2`. -/
def poolSize (p : List BString) : Nat :=
  28 + 4 * p.length + (p.map (fun bs => bs.enc.length)).sum + 2

/-- `binStringPool.append`: STRING_POOL chunk header (type 1, header size
0x1c, total size `uint16(p.size())`), string count, style count 0, flags 0,
strings start, styles start 0, per-entry offsets, the encodings, and a
trailing zero u16. -/
def poolAppend (b : List Nat) (p : List BString) : List Nat :=
  let stringsStart := 28 + 4 * p.length
  let b1 := appendU16 b 1
  let b2 := appendU16 b1 28
  let b3 := appendU16 b2 (poolSize p)
  let b4 := appendU16 b3 0
  let b5 := appendU32 b4 p.length
  let b6 := appendU32 b5 0
  let b7 := appendU32 b6 0
  let b8 := appendU32 b7 stringsStart
  let b9 := appendU32 b8 0
  let b10 := (p.foldl (fun acc bs => (appendU32 acc.1 acc.2, acc.2 + bs.enc.length)) (b9, 0)).1
  appendU16 (b10 ++ (p.map (fun bs => bs.enc)).flatten) 0

/-- The serialization phase at the end of `binaryXML` (after `sortPool`):
`size := 8 + pool.size()`, `b := appendHeader([], headerXML (3), size)`,
`b = pool.append(b)`.  The collected `elements` (namespace/element chunks)
are never serialized (the loop over them is commented out in the source),
and no resource map is emitted. -/
def binaryXMLSerialize (p : List BString) : List Nat :=
  poolAppend (appendHeader [] 3 (8 + poolSize p)) p

/-- `binStringPool.Swap`: exchange the entries at `i` and `j` and also
exchange their stored `ind` fields, so that the entry now at a position
carries that position's old index. -/
def poolSwap (l : List BString) (i j : Nat) : List BString :=
  if h : i < l.length ∧ j < l.length then
    let a := l.get ⟨i, h.1⟩
    let b := l.get ⟨j, h.2⟩
    (l.set i { b with ind := a.ind }).set j { a with ind := b.ind }
  else l

/-- The effect of a sequence of `Swap` calls, as issued by Go's `sort.Sort`
inside `sortPool`. -/
def applySwaps (l : List BString) (sw : List (Nat × Nat)) : List BString :=
  sw.foldl (fun acc ij => poolSwap acc ij.1 ij.2) l

/-- The transposition of positions `i` and `j`. -/
def transp (i j k : Nat) : Nat :=
  if k = j then i else if k = i then j else k

/-- The Android XML namespace literal from `binStringPool.getAttr`. -/
def androidNS : String := "http://schemas.android.com/apk/res/android"

/-- Errors returned by the Go standard library parsers used in `getAttr`. -/
inductive GoErr where
  | atoiBad (s : String)
  | atoiRange (s : String)
  | boolBad (s : String)
  deriving DecidableEq, Repr

/-- The dynamic `data interface{}` field of `binAttr`: Go stores an `int`,
`bool`, `uint32` (configChanges flags) or `*bstring`. -/
inductive AttrData where
  | int (v : Int)
  | bool (b : Bool)
  | flags (v : Nat)
  | str (b : BString)
  deriving DecidableEq, Repr

/-- `binAttr` from binary_xml.go. -/
structure BinAttr where
  ns : BString
  name : BString
  data : AttrData
  deriving DecidableEq, Repr

/-- An `xml.Attr`: namespace, local name, textual value. -/
structure XmlAttr where
  space : String
  localName : String
  value : String
  deriving DecidableEq, Repr

instance {ε α : Type} [DecidableEq ε] [DecidableEq α] : DecidableEq (Except ε α) :=
  fun a b =>
    match a, b with
    | Except.ok x, Except.ok y =>
      if h : x = y then Decidable.isTrue (by rw [h])
      else Decidable.isFalse (by intro hh; injection hh; exact h (by assumption))
    | Except.ok _, Except.error _ => Decidable.isFalse (by intro hh; injection hh)
    | Except.error _, Except.ok _ => Decidable.isFalse (by intro hh; injection hh)
    | Except.error x, Except.error y =>
      if h : x = y then Decidable.isTrue (by rw [h])
      else Decidable.isFalse (by intro hh; injection hh; exact h (by assumption))

/-- Modelled from the Go standard library: `strconv.ParseBool` accepts
exactly these twelve literals and rejects everything else. -/
def goParseBool (s : String) : Except GoErr Bool :=
  match s with
  | "1" | "t" | "T" | "TRUE" | "true" | "True" => Except.ok true
  | "0" | "f" | "F" | "FALSE" | "false" | "False" => Except.ok false
  | _ => Except.error (GoErr.boolBad s)

/-- Decimal value of a digit list, or `none` when empty or not all digits. -/
def digitsVal (l : List Char) : Option Nat :=
  match l with
  | [] => none
  | _ =>
    l.foldl
      (fun acc c =>
        match acc with
        | none => none
        | some n => if c.isDigit then some (n * 10 + (c.toNat - 48)) else none)
      (some 0)

/-- Modelled from the Go standard library: `strconv.Atoi` (`ParseInt` base
10, 64-bit): optional sign, one or more decimal digits, range-checked
against int64. -/
def goAtoi (s : String) : Except GoErr Int :=
  let (neg, ds) :=
    match s.data with
    | '+' :: r => (false, r)
    | '-' :: r => (true, r)
    | r => (false, r)
  match digitsVal ds with
  | none => Except.error (GoErr.atoiBad s)
  | some n =>
    let v : Int := if neg then -(n : Int) else (n : Int)
    if v < -(2 ^ 63) ∨ 2 ^ 63 - 1 < v then Except.error (GoErr.atoiRange s)
    else Except.ok v

/-- The `configChanges` table from binary_xml.go; a Go map lookup yields 0
for a missing key. -/
def configChangesLookup (s : String) : Nat :=
  match s with
  | "mcc" => 1
  | "mnc" => 2
  | "locale" => 4
  | "touchscreen" => 8
  | "keyboard" => 16
  | "keyboardHidden" => 32
  | "navigation" => 64
  | "orientation" => 128
  | "screenLayout" => 256
  | "uiMode" => 512
  | "screenSize" => 1024
  | "smallestScreenSize" => 2048
  | "layoutDirection" => 8192
  | "fontScale" => 1073741824
  | _ => 0

/-- `strings.Split(s, "|")` on the rune list (single-rune separator). -/
def splitPipeAux : List Char → List (List Char)
  | [] => [[]]
  | c :: rest =>
    match splitPipeAux rest with
    | [] => [[]]
    | t :: ts => if c = '|' then [] :: t :: ts else (c :: t) :: ts

/-- `strings.Split(s, "|")`. -/
def goSplitPipe (s : String) : List String :=
  (splitPipeAux s.data).map fun l => String.mk l

/-- The `configChanges` arm of `getAttr`: `v |= configChanges[c]` over the
pipe-separated tokens. -/
def configChangesValue (v : String) : Nat :=
  (goSplitPipe v).foldl (fun acc t => acc ||| configChangesLookup t) 0

/-- `binStringPool.getAttr`: intern the namespace and the name; non-Android
namespaces intern the value as a string; Android-namespace `versionCode`
and `minSdkVersion` parse as decimal ints, `hasCode` and `debuggable` as
booleans, `configChanges` as a flag OR; everything else interns the value. -/
def getAttr (p : List BString) (a : XmlAttr) : List BString × Except GoErr BinAttr :=
  let r1 := poolGet p a.space
  let r2 := poolGet r1.1 a.localName
  let ns := r1.2
  let nm := r2.2
  let p2 := r2.1
  if a.space ≠ androidNS then
    ((poolGet p2 a.value).1, Except.ok ⟨ns, nm, AttrData.str (poolGet p2 a.value).2⟩)
  else
    match a.localName with
    | "versionCode" | "minSdkVersion" =>
      match goAtoi a.value with
      | Except.ok v => (p2, Except.ok ⟨ns, nm, AttrData.int v⟩)
      | Except.error e => (p2, Except.error e)
    | "hasCode" | "debuggable" =>
      match goParseBool a.value with
      | Except.ok v => (p2, Except.ok ⟨ns, nm, AttrData.bool v⟩)
      | Except.error e => (p2, Except.error e)
    | "configChanges" =>
      (p2, Except.ok ⟨ns, nm, AttrData.flags (configChangesValue a.value)⟩)
    | _ =>
      ((poolGet p2 a.value).1, Except.ok ⟨ns, nm, AttrData.str (poolGet p2 a.value).2⟩)

/-- `binStringPool.get` with its panic branch explicit: `none` is the
`panic` the source raises (after the miss) when `len(str)>>16 > 0`; Go
aborts there, so no pool state or entry is observable. -/
def poolGetP (p : List BString) (s : String) : Option (List BString × BString) :=
  match p.find? (fun b => b.str == s) with
  | some b => some (p, b)
  | none =>
    if panicCond s then none
    else some (p ++ [⟨p.length, s, encodeStr s⟩], ⟨p.length, s, encodeStr s⟩)

/-- `binStringPool.getAttr` with the interning panic explicit: `none` means
the call crashed inside one of its `get` calls (namespace, name, or — on
the string-valued branches — the value); otherwise it behaves as
`getAttr`. -/
def getAttrP (p : List BString) (a : XmlAttr) :
    Option (List BString × Except GoErr BinAttr) :=
  match poolGetP p a.space with
  | none => none
  | some r1 =>
    match poolGetP r1.1 a.localName with
    | none => none
    | some r2 =>
      if a.space ≠ androidNS then
        match poolGetP r2.1 a.value with
        | none => none
        | some r3 => some (r3.1, Except.ok ⟨r1.2, r2.2, AttrData.str r3.2⟩)
      else
        match a.localName with
        | "versionCode" | "minSdkVersion" =>
          match goAtoi a.value with
          | Except.ok v => some (r2.1, Except.ok ⟨r1.2, r2.2, AttrData.int v⟩)
          | Except.error e => some (r2.1, Except.error e)
        | "hasCode" | "debuggable" =>
          match goParseBool a.value with
          | Except.ok v => some (r2.1, Except.ok ⟨r1.2, r2.2, AttrData.bool v⟩)
          | Except.error e => some (r2.1, Except.error e)
        | "configChanges" =>
          some (r2.1, Except.ok ⟨r1.2, r2.2, AttrData.flags (configChangesValue a.value)⟩)
        | _ =>
          match poolGetP r2.1 a.value with
          | none => none
          | some r3 => some (r3.1, Except.ok ⟨r1.2, r2.2, AttrData.str r3.2⟩)

/-- Rendering of the modelled Go errors, after `strconv`'s messages. -/
def showErr : GoErr → String
  | GoErr.atoiBad s => "strconv.Atoi: parsing " ++ s ++ ": invalid input"
  | GoErr.atoiRange s => "strconv.Atoi: parsing " ++ s ++ ": value out of range"
  | GoErr.boolBad s => "strconv.ParseBool: parsing " ++ s ++ ": invalid input"

/-- The wrapping in `binaryXML`'s attribute loop:
`fmt.Errorf("%d: %s: %v", line, a.Name.Local, err)`. -/
def errWrap (line : Nat) (localName : String) (e : GoErr) : String :=
  toString line ++ ": " ++ localName ++ ": " ++ showErr e

/-- Result extractor used to state that `getAttr` did not error. -/
def exceptOk : Except GoErr BinAttr → Bool
  | Except.ok _ => true
  | Except.error _ => false

/-- `binAttr.append`: ns index, name index, raw value `0xffffffff`, value
size 8, padding 0, then the type tag and 32-bit data.  The Go type switch
has no `*bstring` arm, so string-valued data falls to the `default:` panic;
that case is `none`. -/
def binAttrAppend (b : List Nat) (a : BinAttr) : Option (List Nat) :=
  let b1 := appendU32 b a.ns.ind
  let b2 := appendU32 b1 a.name.ind
  let b3 := appendU32 b2 4294967295
  let b4 := appendU16 b3 8
  let b5 := appendU16 b4 0
  match a.data with
  | AttrData.int v => some (appendU32 (b5 ++ [16]) ((v % 4294967296).toNat)
)
  | AttrData.bool v => some (appendU32 (b5 ++ [18]) (if v then 1 else 0))
  | AttrData.flags v => some (appendU32 (b5 ++ [16]) v)
  | AttrData.str _ => none

/-- The `Writer` of writer.go, observably: the bytes it has written to the
underlying sink.  (The manifest bookkeeping is irrelevant to `Close`,
which is a stub.) -/
structure GoWriter where
  emitted : List Nat
  deriving DecidableEq, Repr

/-- `Writer.Close` from writer.go: `return nil` — it writes nothing and
reports no error. -/
def writerClose (w : GoWriter) : GoWriter × Option String := (w, none)

/-- `lineReader.Read`: record the absolute offset of every `'\n'` byte; `k`
is the running offset (`r.off`). -/
def newlineOffsets : List Nat → Nat → List Nat
  | [], _ => []
  | b :: rest, k =>
    if b = 10 then k :: newlineOffsets rest (k + 1)
    else newlineOffsets rest (k + 1)

/-- Go's `sort.Search` loop with explicit fuel: `i, j := 0, n`; while
`i < j`, probe `h := (i+j)/2` and narrow to `[i,h]` or `[h+1,j]`.  The
width `j - i` shrinks every iteration, so fuel `n` always suffices. -/
def goSearchAux : Nat → Nat → Nat → (Nat → Bool) → Nat
  | 0, i, _, _ => i
  | fuel + 1, i, j, f =>
    if i < j then
      let m := (i + j) / 2
      if f m then goSearchAux fuel i m f else goSearchAux fuel (m + 1) j f
    else i

/-- `sort.Search(n, f)`. -/
def goSearch (n : Nat) (f : Nat → Bool) : Nat := goSearchAux n 0 n f

/-- `lineReader.line`: `sort.Search(len(r.lines), func(i) { return pos <
r.lines[i] }) + 1`. -/
def lineOf (lines : List Nat) (pos : Nat) : Nat :=
  goSearch lines.length (fun i => decide (pos < lines.getD i 0)) + 1

/-- Index invariant of the pool: each entry's stored `ind` equals its
position. -/
abbrev indOk (l : List BString) : Prop :=
  ∀ i : Fin l.length, (l.get i).ind = i.val

/-- No two pool positions hold the same string. -/
abbrev strDistinct (l : List BString) : Prop :=
  ∀ i j : Fin l.length, i ≠ j → (l.get i).str ≠ (l.get j).str

/-- Go's `<` on strings: lexicographic comparison.  On valid UTF-8 the
byte-wise comparison Go performs coincides with code-point lexicographic
order, modelled here on the rune list. -/
def goStrLt : List Char → List Char → Bool
  | [], [] => false
  | [], _ :: _ => true
  | _ :: _, [] => false
  | a :: as, b :: bs =>
    if a.toNat < b.toNat then true
    else if b.toNat < a.toNat then false
    else goStrLt as bs

/-- Go's `sort.Sort` postcondition for `binStringPool.Less`: no pair of
positions is inverted. -/
abbrev noInversions (l : List BString) : Prop :=
  ∀ i j : Fin l.length, i.val < j.val → goStrLt (l.get j).str.data (l.get i).str.data = false

/-- Strictly increasing string values along the pool. -/
abbrev strictSorted (l : List BString) : Prop :=
  ∀ i j : Fin l.length, i.val < j.val → goStrLt (l.get i).str.data (l.get j).str.data = true


theorem appendU16_length (b : List Nat) (v : Nat) : (appendU16 b v).length = b.length + 2 := by
  simp [appendU16]

theorem appendU32_length (b : List Nat) (v : Nat) : (appendU32 b v).length = b.length + 4 := by
  simp [appendU32]

theorem appendHeader_length (b : List Nat) (typ size : Nat) :
    (appendHeader b typ size).length = b.length + 8 := by
  simp [appendHeader, appendU16_length]

theorem poolOffsets_length (p : List BString) (b : List Nat) (o : Nat) :
    ((p.foldl (fun acc bs => (appendU32 acc.1 acc.2, acc.2 + bs.enc.length)) (b, o)).1).length =
      b.length + 4 * p.length := by
  induction p generalizing b o with
  | nil => simp
  | cons x xs ih =>
    simp only [List.foldl_cons]
    rw [ih]
    simp [appendU32_length]
    omega

theorem poolAppend_length (b : List Nat) (p : List BString) :
    (poolAppend b p).length = b.length + poolSize p := by
  simp only [poolAppend, appendU16_length, List.length_append]
  rw [poolOffsets_length]
  simp [appendU16_length, appendU32_length, poolSize, List.length_flatten,
    List.map_map, Function.comp_def]
  omega

/-- C1: `binaryXML`'s output stops after the string pool.  Its length is
always exactly 8 (file-chunk header) + the string-pool chunk size, so it
contains no resource-map chunk (which would need 8 more bytes) and no
start-namespace / element / end-namespace chunks.  The second conjunct
evaluates the serializer on the pool produced by the document `<m/>`
(whose `get` calls are "", "m", "", "m"): 56 bytes, bare header + pool. -/
theorem c1_output_is_header_and_pool_only :
    (∀ p : List BString, (binaryXMLSerialize p).length = 8 + poolSize p) ∧
    (binaryXMLSerialize (poolOfList ["", "m", "", "m"])).length = 56 := by
  constructor
  · intro p
    simp [binaryXMLSerialize, poolAppend_length, appendHeader_length]
  · decide

/-- C2: the pool encoding of the fixture string `Balloon世界`.  The 16-bit
length field the code writes is 13 — Go's `len`, the UTF-8 byte count —
while the string has 9 UTF-16 code units (the value the reference hexdump
and the claim require, `0x0009`). -/
theorem c2_length_field_is_bytes_not_utf16 :
    encodeStr "Balloon世界" =
      [13, 0, 66, 0, 97, 0, 108, 0, 108, 0, 111, 0, 111, 0, 110, 0,
        22, 78, 76, 117, 0, 0] ∧
    goLen "Balloon世界" = 13 ∧
    goUtf16 "Balloon世界" = [66, 97, 108, 108, 111, 111, 110, 19990, 30028] ∧
    goUtf16Len "Balloon世界" = 9 := by
  decide

/-- C3: `Writer.Close` is `return nil`: it emits nothing into the archive
(no META-INF files, no central directory) and reports no error, for every
writer state. -/
theorem c3_close_emits_nothing : ∀ w : GoWriter, writerClose w = (w, none) :=
  fun _ => rfl

theorem goLen_replicate (n : Nat) (c : Char) :
    goLen (String.mk (List.replicate n c)) = n * utf8Size c := by
  simp [goLen, List.map_replicate, List.sum_replicate, smul_eq_mul]

theorem goUtf16Len_replicate (n : Nat) (c : Char) :
    goUtf16Len (String.mk (List.replicate n c)) = n * (utf16Units c).length := by
  simp [goUtf16Len, goUtf16, List.map_replicate, List.length_flatten,
    List.sum_replicate, smul_eq_mul]

/-- C4: the long-string guard misfires on both sides.  A string of 2^15
ASCII characters has 2^15 UTF-16 code units (needing the unsupported
long-form length) but does not trip the guard `len(str)>>16 > 0`, so no
error at all is raised for it; a string of 22000 three-byte runes has only
22000 < 2^15 code units but trips the guard (which then panics rather than
returning an error). -/
theorem c4_long_string_guard_wrong :
    goUtf16Len (String.mk (List.replicate 32768 'a')) = 32768 ∧
    panicCond (String.mk (List.replicate 32768 'a')) = false ∧
    goUtf16Len (String.mk (List.replicate 22000 '世')) = 22000 ∧
    goLen (String.mk (List.replicate 22000 '世')) = 66000 ∧
    panicCond (String.mk (List.replicate 22000 '世')) = true := by
  have ha : goLen (String.mk (List.replicate 32768 'a')) = 32768 := by
    rw [goLen_replicate]; decide
  have hb : goLen (String.mk (List.replicate 22000 '世')) = 66000 := by
    rw [goLen_replicate]; decide
  refine ⟨?_, ?_, ?_, hb, ?_⟩
  · rw [goUtf16Len_replicate]; decide
  · unfold panicCond; rw [ha]; decide
  · rw [goUtf16Len_replicate]; decide
  · unfold panicCond; rw [hb]; decide

/-- C7: an `android:configChanges` attribute never errors; its value is the
bitwise OR of the table entries for the pipe-separated tokens, a missing
token contributing 0; `orientation|nonsense` encodes as 0x80. -/
theorem c7_configChanges_flags :
    (∀ (p : List BString) (v : String),
        (getAttr p ⟨androidNS, "configChanges", v⟩).2 =
          Except.ok ⟨(poolGet p androidNS).2,
            (poolGet (poolGet p androidNS).1 "configChanges").2,
            AttrData.flags (configChangesValue v)⟩) ∧
    (∀ v : String,
        configChangesValue v =
          (goSplitPipe v).foldl (fun acc t => acc ||| configChangesLookup t) 0) ∧
    configChangesLookup "nonsense" = 0 ∧
    configChangesValue "orientation|nonsense" = 128 := by
  refine ⟨fun p v => rfl, fun v => rfl, rfl, by decide⟩

/-- C5 counterexample: the textual value `True` is neither `true` nor
`false`, yet `getAttr` accepts it for `android:hasCode` (Go's
`strconv.ParseBool` is lenient), refuting the claim that every value other
than those two literals is rejected. -/
theorem c5_counterexample_true_accepted :
    exceptOk (getAttr [] ⟨androidNS, "hasCode", "True"⟩).2 = true ∧
    ("True" == "true") = false ∧ ("True" == "false") = false := by
  decide

/-- C8 counterexample: for input bytes `a\n b` the newline sits at offset 1;
querying position 1 reports line 2, while the number of newline bytes
strictly preceding position 1 is 0, so the claimed formula predicts 1. -/
theorem c8_counterexample_newline_at_pos :
    lineOf (newlineOffsets [97, 10, 98] 0) 1 = 2 ∧
    (([97, 10, 98] : List Nat).take 1).countP (fun b => b == 10) + 1 = 1 := by
  decide

theorem foldl_off_shift (p : List BString) (b : List Nat) (o : Nat) :
    (p.foldl (fun acc bs => (appendU32 acc.1 acc.2, acc.2 + bs.enc.length)) (b, o)).1 =
      b ++ (p.foldl (fun acc bs => (appendU32 acc.1 acc.2, acc.2 + bs.enc.length))
        (([] : List Nat), o)).1 := by
  induction p generalizing b o with
  | nil => simp
  | cons x xs ih =>
    simp only [List.foldl_cons]
    rw [ih (appendU32 b o), ih (appendU32 [] o)]
    simp [appendU32, List.append_assoc]

/-- C9: every chunk total-size field the encoder writes (file header via
`appendHeader`, string-pool header via `binStringPool.append`) is the
computed size reduced `uint16`-style — low byte, high byte — followed by
two zero bytes; read back as a little-endian u32 that is `size % 2^16`,
which equals the true size exactly when the size is below 65536. -/
theorem c9_total_size_truncated_u16 :
    (∀ (b : List Nat) (typ size : Nat),
        appendHeader b typ size =
          b ++ [typ % 256, typ / 256 % 256, 8, 0, size % 256, size / 256 % 256, 0, 0]) ∧
    (∀ (b : List Nat) (p : List BString), ∃ rest,
        poolAppend b p =
          b ++ [1, 0, 28, 0, poolSize p % 256, poolSize p / 256 % 256, 0, 0] ++ rest) ∧
    (∀ size : Nat, leU32 (size % 256) (size / 256 % 256) 0 0 = size % 65536) ∧
    (∀ size : Nat, size % 65536 = size ↔ size < 65536) := by
  refine ⟨?_, ?_, ?_, ?_⟩
  · intro b typ size
    simp [appendHeader, appendU16, List.append_assoc]
  · intro b p
    refine ⟨appendU32 (appendU32 (appendU32 (appendU32 (appendU32 [] p.length) 0) 0)
        (28 + 4 * p.length)) 0 ++
      (p.foldl (fun acc bs => (appendU32 acc.1 acc.2, acc.2 + bs.enc.length))
        (([] : List Nat), 0)).1 ++
      (p.map (fun bs => bs.enc)).flatten ++ [0, 0], ?_⟩
    simp only [poolAppend]
    rw [foldl_off_shift]
    simp [appendU16, appendU32, List.append_assoc]
  · intro size
    simp only [leU32]
    omega
  · intro size
    constructor
    · intro h; omega
    · intro h; omega

theorem goStrLt_cases : ∀ as bs : List Char,
    goStrLt as bs = true ∨ as = bs ∨ goStrLt bs as = true := by
  intro as
  induction as with
  | nil =>
    intro bs
    cases bs with
    | nil => exact Or.inr (Or.inl rfl)
    | cons b bs => exact Or.inl rfl
  | cons a as ih =>
    intro bs
    cases bs with
    | nil => exact Or.inr (Or.inr rfl)
    | cons b bs =>
      by_cases h1 : a.toNat < b.toNat
      · exact Or.inl (by simp [goStrLt, h1])
      · by_cases h2 : b.toNat < a.toNat
        · exact Or.inr (Or.inr (by simp [goStrLt, h2]))
        · have hab : a = b := by
            have h3 : a.toNat = b.toNat := by omega
            rw [← Char.ofNat_toNat a, ← Char.ofNat_toNat b, h3]
          subst hab
          rcases ih bs with h | h | h
          · exact Or.inl (by simp [goStrLt, h1, h2, h])
          · exact Or.inr (Or.inl (by rw [h]))
          · exact Or.inr (Or.inr (by simp [goStrLt, h1, h2, h]))

theorem indOk_nil : indOk [] := by
  intro i
  exact absurd i.isLt (by simp)

theorem strDistinct_nil : strDistinct [] := by
  intro i
  exact absurd i.isLt (by simp)

theorem poolGet_indOk (p : List BString) (s : String) (h : indOk p) :
    indOk (poolGet p s).1 := by
  cases hfind : p.find? (fun b => b.str == s) with
  | some b => simpa only [poolGet, hfind] using h
  | none =>
    simp only [poolGet, hfind]
    intro i
    rcases i with ⟨k, hk⟩
    simp only [List.get_eq_getElem]
    by_cases hkp : k < p.length
    · rw [List.getElem_append_left hkp]
      exact h ⟨k, hkp⟩
    · have hkl : k = p.length := by
        simp only [List.length_append, List.length_cons, List.length_nil] at hk
        omega
      rw [List.getElem_concat_length _ _ _ hkl]
      exact hkl.symm

theorem poolGet_strDistinct (p : List BString) (s : String) (h : strDistinct p) :
    strDistinct (poolGet p s).1 := by
  cases hfind : p.find? (fun b => b.str == s) with
  | some b => simpa only [poolGet, hfind] using h
  | none =>
    have hnotin : ∀ x ∈ p, x.str ≠ s := by
      intro x hx
      have := List.find?_eq_none.mp hfind x hx
      simpa using this
    simp only [poolGet, hfind]
    intro i j hij
    rcases i with ⟨ki, hki⟩
    rcases j with ⟨kj, hkj⟩
    have hkij : ki ≠ kj := fun hv => hij (Fin.ext hv)
    simp only [List.get_eq_getElem]
    simp only [List.length_append, List.length_cons, List.length_nil] at hki hkj
    by_cases hip : ki < p.length <;> by_cases hjp : kj < p.length
    · rw [List.getElem_append_left hip, List.getElem_append_left hjp]
      exact h ⟨ki, hip⟩ ⟨kj, hjp⟩ (fun hv => hkij (congrArg Fin.val hv))
    · have hkj' : kj = p.length := by omega
      rw [List.getElem_append_left hip, List.getElem_concat_length _ _ _ hkj']
      exact hnotin _ (List.getElem_mem hip)
    · have hki' : ki = p.length := by omega
      rw [List.getElem_append_left hjp, List.getElem_concat_length _ _ _ hki']
      exact fun hv => hnotin _ (List.getElem_mem hjp) hv.symm
    · exact absurd (by omega : ki = kj) hkij

theorem poolFold_inv (xs : List String) : ∀ p : List BString, indOk p → strDistinct p →
    indOk (xs.foldl (fun p x => (poolGet p x).1) p) ∧
      strDistinct (xs.foldl (fun p x => (poolGet p x).1) p) := by
  induction xs with
  | nil => exact fun p h1 h2 => ⟨h1, h2⟩
  | cons x xs ih =>
    intro p h1 h2
    simp only [List.foldl_cons]
    exact ih _ (poolGet_indOk _ _ h1) (poolGet_strDistinct _ _ h2)

theorem poolOfList_inv (xs : List String) :
    indOk (poolOfList xs) ∧ strDistinct (poolOfList xs) :=
  poolFold_inv xs [] indOk_nil strDistinct_nil

theorem transp_lt {n i j k : Nat} (hi : i < n) (hj : j < n) (hk : k < n) :
    transp i j k < n := by
  unfold transp
  split_ifs <;> omega

theorem transp_inj {i j k l : Nat} (h : transp i j k = transp i j l) : k = l := by
  unfold transp at h
  split_ifs at h <;> omega

theorem poolSwap_length (l : List BString) (i j : Nat) :
    (poolSwap l i j).length = l.length := by
  unfold poolSwap
  split <;> simp

theorem poolSwap_indOk (l : List BString) (i j : Nat) (h : indOk l) :
    indOk (poolSwap l i j) := by
  unfold poolSwap
  split
  case isTrue hr =>
    intro k
    rcases k with ⟨kv, hkv⟩
    simp only [List.get_eq_getElem]
    simp only [List.length_set] at hkv
    rw [List.getElem_set]
    by_cases h1 : j = kv
    · rw [if_pos h1]
      have := h ⟨j, hr.2⟩
      simp only [List.get_eq_getElem] at this
      simpa [← h1] using this
    · rw [if_neg h1, List.getElem_set]
      by_cases h2 : i = kv
      · rw [if_pos h2]
        have := h ⟨i, hr.1⟩
        simp only [List.get_eq_getElem] at this
        simpa [← h2] using this
      · rw [if_neg h2]
        exact h ⟨kv, hkv⟩
  case isFalse => exact h

theorem poolSwap_eq (l : List BString) (i j : Nat) (hi : i < l.length)
    (hj : j < l.length) :
    poolSwap l i j =
      (l.set i { l.get ⟨j, hj⟩ with ind := (l.get ⟨i, hi⟩).ind }).set j
        { l.get ⟨i, hi⟩ with ind := (l.get ⟨j, hj⟩).ind } := by
  unfold poolSwap
  rw [dif_pos ⟨hi, hj⟩]

theorem poolSwap_get_str (l : List BString) (i j : Nat) (hi : i < l.length)
    (hj : j < l.length) (k : Nat) (hks : k < (poolSwap l i j).length)
    (hkl : transp i j k < l.length) :
    ((poolSwap l i j).get ⟨k, hks⟩).str = (l.get ⟨transp i j k, hkl⟩).str := by
  simp only [List.get_eq_getElem]
  simp only [poolSwap_eq l i j hi hj]
  by_cases h1 : k = j
  · subst h1
    rw [List.getElem_set, if_pos rfl]
    simp [transp, List.get_eq_getElem]
  · by_cases h2 : k = i
    · subst h2
      rw [List.getElem_set, if_neg (fun hv => h1 hv.symm), List.getElem_set, if_pos rfl]
      simp [transp, h1, List.get_eq_getElem]
    · rw [List.getElem_set, if_neg (fun hv => h1 hv.symm), List.getElem_set,
        if_neg (fun hv => h2 hv.symm)]
      simp [transp, h1, h2]

theorem poolSwap_strDistinct (l : List BString) (i j : Nat) (h : strDistinct l) :
    strDistinct (poolSwap l i j) := by
  by_cases hr : i < l.length ∧ j < l.length
  · intro k1 k2 hne
    cases k1 with
    | mk k1v hk1v =>
      cases k2 with
      | mk k2v hk2v =>
        have hk1 : k1v < l.length := Nat.lt_of_lt_of_eq hk1v (poolSwap_length l i j)
        have hk2 : k2v < l.length := Nat.lt_of_lt_of_eq hk2v (poolSwap_length l i j)
        rw [poolSwap_get_str l i j hr.1 hr.2 k1v hk1v (transp_lt hr.1 hr.2 hk1),
          poolSwap_get_str l i j hr.1 hr.2 k2v hk2v (transp_lt hr.1 hr.2 hk2)]
        exact h ⟨transp i j k1v, transp_lt hr.1 hr.2 hk1⟩
          ⟨transp i j k2v, transp_lt hr.1 hr.2 hk2⟩
          (fun hv => hne (Fin.ext (transp_inj (congrArg Fin.val hv))))
  · unfold poolSwap
    rw [dif_neg hr]
    exact h

theorem applySwaps_indOk (l : List BString) (sw : List (Nat × Nat)) (h : indOk l) :
    indOk (applySwaps l sw) := by
  induction sw generalizing l with
  | nil => exact h
  | cons x xs ih => exact ih _ (poolSwap_indOk _ _ _ h)

theorem applySwaps_strDistinct (l : List BString) (sw : List (Nat × Nat))
    (h : strDistinct l) : strDistinct (applySwaps l sw) := by
  induction sw generalizing l with
  | nil => exact h
  | cons x xs ih => exact ih _ (poolSwap_strDistinct _ _ _ h)

/-- C6: a pool built by interning (`get`) holds pairwise-distinct strings
with each entry's `ind` equal to its position; both facts survive every
`Swap` that `sort.Sort` performs, so once the result has no inversions
under `Less` (Go's sort postcondition) the entries are in strictly
increasing lexicographic order and every entry's stored index equals its
position. -/
theorem c6_sorted_pool_strict (xs : List String) (sw : List (Nat × Nat))
    (hs : noInversions (applySwaps (poolOfList xs) sw)) :
    strictSorted (applySwaps (poolOfList xs) sw) ∧
      indOk (applySwaps (poolOfList xs) sw) := by
  obtain ⟨hio, hsd⟩ := poolOfList_inv xs
  have hio2 := applySwaps_indOk _ sw hio
  have hsd2 := applySwaps_strDistinct _ sw hsd
  refine ⟨?_, hio2⟩
  intro i j hij
  have h1 := hs i j hij
  have hne := hsd2 i j (fun hh => absurd (congrArg Fin.val hh) (Nat.ne_of_lt hij))
  rcases goStrLt_cases (((applySwaps (poolOfList xs) sw).get i).str.data)
      (((applySwaps (poolOfList xs) sw).get j).str.data) with h | h | h
  · exact h
  · exact absurd (String.ext h) hne
  · rw [h] at h1
    cases h1

/-- Witness for C6 at a concrete sorting run: pool from interning "b" then
"a", sorted by the single swap (0, 1). -/
theorem c6_sorted_pool_strict_witness :
    strictSorted (applySwaps (poolOfList ["b", "a"]) [(0, 1)]) ∧
      indOk (applySwaps (poolOfList ["b", "a"]) [(0, 1)]) :=
  c6_sorted_pool_strict ["b", "a"] [(0, 1)] (by decide)

theorem goSearchAux_spec (f : Nat → Bool) :
    ∀ (fuel i j : Nat), j - i ≤ fuel → i ≤ j →
    (∀ a b, i ≤ a → a ≤ b → b < j → f a = true → f b = true) →
    i ≤ goSearchAux fuel i j f ∧ goSearchAux fuel i j f ≤ j ∧
      (∀ k, i ≤ k → k < goSearchAux fuel i j f → f k = false) ∧
      (∀ k, goSearchAux fuel i j f ≤ k → k < j → f k = true) := by
  intro fuel
  induction fuel with
  | zero =>
    intro i j hfuel hij hmono
    have hji : i = j := by omega
    subst hji
    simp only [goSearchAux]
    exact ⟨Nat.le_refl i, Nat.le_refl i, fun k h1 h2 => by omega, fun k h1 h2 => by omega⟩
  | succ n ih =>
    intro i j hfuel hij hmono
    by_cases hlt : i < j
    · have hm1 : i ≤ (i + j) / 2 := by omega
      have hm2 : (i + j) / 2 < j := by omega
      by_cases hfm : f ((i + j) / 2) = true
      · have heq : goSearchAux (n + 1) i j f = goSearchAux n i ((i + j) / 2) f := by
          simp [goSearchAux, hlt, hfm]
        rw [heq]
        obtain ⟨h1, h2, h3, h4⟩ := ih i ((i + j) / 2) (by omega) hm1
          (fun a b ha hab hb hfa => hmono a b ha hab (by omega) hfa)
        refine ⟨h1, by omega, h3, ?_⟩
        intro k hk hkj
        by_cases hkm : k < (i + j) / 2
        · exact h4 k hk hkm
        · exact hmono ((i + j) / 2) k hm1 (by omega) hkj hfm
      · have heq : goSearchAux (n + 1) i j f = goSearchAux n ((i + j) / 2 + 1) j f := by
          simp [goSearchAux, hlt, hfm]
        rw [heq]
        obtain ⟨h1, h2, h3, h4⟩ := ih ((i + j) / 2 + 1) j (by omega) (by omega)
          (fun a b ha hab hb hfa => hmono a b (by omega) hab hb hfa)
        refine ⟨by omega, h2, ?_, h4⟩
        intro k hik hkr
        by_cases hkm : (i + j) / 2 + 1 ≤ k
        · exact h3 k hkm hkr
        · cases hfk : f k with
          | false => rfl
          | true =>
            have := hmono k ((i + j) / 2) hik (by omega) hm2 hfk
            rw [this] at hfm
            exact absurd rfl hfm
    · have hji : i = j := by omega
      subst hji
      simp only [goSearchAux]
      have : (if i < i then
          if f ((i + i) / 2) then goSearchAux n i ((i + i) / 2) f
          else goSearchAux n ((i + i) / 2 + 1) i f
        else i) = i := by simp
      rw [this]
      exact ⟨Nat.le_refl i, Nat.le_refl i, fun k h1 h2 => by omega, fun k h1 h2 => by omega⟩

theorem countP_of_split (P : Nat → Bool) :
    ∀ (L : List Nat) (r : Nat), r ≤ L.length →
    (∀ k (hk : k < L.length), k < r → P (L.get ⟨k, hk⟩) = true) →
    (∀ k (hk : k < L.length), r ≤ k → P (L.get ⟨k, hk⟩) = false) →
    L.countP P = r := by
  intro L
  induction L with
  | nil =>
    intro r hr _ _
    simp at hr
    simp [hr]
  | cons x xs ih =>
    intro r hr htrue hfalse
    cases r with
    | zero =>
      have hx : P x = false := hfalse 0 (by simp) (Nat.le_refl 0)
      have : xs.countP P = 0 := by
        apply ih 0 (by omega)
        · intro k hk hk0; omega
        · intro k hk _
          exact hfalse (k + 1) (by simpa using Nat.succ_lt_succ hk) (by omega)
      simp [List.countP_cons, hx, this]
    | succ r =>
      have hx : P x = true := htrue 0 (by simp) (by omega)
      have hxs : xs.countP P = r := by
        apply ih r (by simpa using hr)
        · intro k hk hkr
          exact htrue (k + 1) (by simpa using Nat.succ_lt_succ hk) (by omega)
        · intro k hk hkr
          exact hfalse (k + 1) (by simpa using Nat.succ_lt_succ hk) (by omega)
      simp [List.countP_cons, hx, hxs]

theorem newlineOffsets_ge (input : List Nat) : ∀ k : Nat,
    ∀ o ∈ newlineOffsets input k, k ≤ o := by
  induction input with
  | nil => intro k o ho; simp [newlineOffsets] at ho
  | cons b rest ih =>
    intro k o ho
    simp only [newlineOffsets] at ho
    by_cases hb : b = 10
    · rw [if_pos hb] at ho
      rw [List.mem_cons] at ho
      rcases ho with ho | ho
      · omega
      · have := ih (k + 1) o ho
        omega
    · rw [if_neg hb] at ho
      have := ih (k + 1) o ho
      omega

theorem newlineOffsets_pairwise (input : List Nat) : ∀ k : Nat,
    (newlineOffsets input k).Pairwise (· < ·) := by
  induction input with
  | nil => intro k; simp [newlineOffsets]
  | cons b rest ih =>
    intro k
    simp only [newlineOffsets]
    by_cases hb : b = 10
    · rw [if_pos hb]
      refine List.Pairwise.cons ?_ (ih (k + 1))
      intro o ho
      have := newlineOffsets_ge rest (k + 1) o ho
      omega
    · rw [if_neg hb]
      exact ih (k + 1)

theorem lineOf_eq_countP (lines : List Nat) (pos : Nat)
    (hsorted : lines.Pairwise (· < ·)) :
    lineOf lines pos = lines.countP (fun o => decide (o ≤ pos)) + 1 := by
  have hmono : ∀ a b, 0 ≤ a → a ≤ b → b < lines.length →
      (fun i => decide (pos < lines.getD i 0)) a = true →
      (fun i => decide (pos < lines.getD i 0)) b = true := by
    intro a b _ hab hb hfa
    simp only [decide_eq_true_eq] at hfa ⊢
    have ha : a < lines.length := by omega
    rw [List.getD_eq_getElem lines 0 ha] at hfa
    rw [List.getD_eq_getElem lines 0 hb]
    rcases Nat.lt_or_ge a b with hlt | hge
    · have hl : lines[a] < lines[b] :=
        (List.pairwise_iff_get.mp hsorted) ⟨a, ha⟩ ⟨b, hb⟩ (by
          simp only [Fin.mk_lt_mk]; omega)
      omega
    · have heq : a = b := by omega
      subst heq
      exact hfa
  obtain ⟨h1, h2, h3, h4⟩ := goSearchAux_spec (fun i => decide (pos < lines.getD i 0))
    lines.length 0 lines.length (by omega) (by omega) hmono
  unfold lineOf goSearch
  congr 1
  symm
  apply countP_of_split
  · exact h2
  · intro k hk hkr
    have hf := h3 k (by omega) hkr
    simp only [decide_eq_false_iff_not, decide_eq_true_eq] at hf
    rw [List.getD_eq_getElem lines 0 hk] at hf
    simp only [decide_eq_true_eq, List.get_eq_getElem]
    omega
  · intro k hk hkr
    have hf := h4 k hkr hk
    simp only [decide_eq_true_eq] at hf
    rw [List.getD_eq_getElem lines 0 hk] at hf
    simp only [decide_eq_false_iff_not, decide_eq_true_eq, List.get_eq_getElem]
    omega

theorem newlineOffsets_countP (input : List Nat) : ∀ (k pos : Nat),
    (newlineOffsets input k).countP (fun o => decide (o ≤ pos)) =
      (input.take (pos + 1 - k)).countP (fun b => b == 10) := by
  induction input with
  | nil => intro k pos; simp [newlineOffsets]
  | cons b rest ih =>
    intro k pos
    simp only [newlineOffsets]
    by_cases hb : b = 10
    · rw [if_pos hb]
      by_cases hk : k ≤ pos
      · have htake : pos + 1 - k = (pos + 1 - (k + 1)) + 1 := by omega
        rw [htake]
        simp only [List.take_succ_cons, List.countP_cons, ih (k + 1) pos, hb]
        simp [hk]
      · have htake : pos + 1 - k = 0 := by omega
        rw [htake]
        have htake2 : pos + 1 - (k + 1) = 0 := by omega
        have := ih (k + 1) pos
        rw [htake2] at this
        simp only [List.take_zero, List.countP_nil] at this ⊢
        simp [List.countP_cons, this, hk]
    · rw [if_neg hb]
      cases htake : pos + 1 - k with
      | zero =>
        have htake2 : pos + 1 - (k + 1) = 0 := by omega
        have := ih (k + 1) pos
        rw [htake2] at this
        simpa using this
      | succ m =>
        have htake2 : pos + 1 - (k + 1) = m := by omega
        have := ih (k + 1) pos
        rw [htake2] at this
        simp only [List.take_succ_cons, List.countP_cons, this]
        simp [hb]

/-- C8 (amended): for every input byte sequence and every queried byte
position, `lineReader.line` reports the count of newline bytes at offsets
less than or equal to the position, plus one (the code's `sort.Search`
uses `pos < lines[i]`, so a newline exactly at the queried position is
counted). -/
theorem c8_line_counts_newlines_le (input : List Nat) (pos : Nat) :
    lineOf (newlineOffsets input 0) pos =
      (input.take (pos + 1)).countP (fun b => b == 10) + 1 := by
  rw [lineOf_eq_countP _ _ (newlineOffsets_pairwise input 0)]
  rw [newlineOffsets_countP input 0 pos]
  simp

theorem poolGet_str (p : List BString) (s : String) : ((poolGet p s).2).str = s := by
  unfold poolGet
  cases hfind : p.find? (fun b => b.str == s) with
  | none => rfl
  | some b =>
    have := List.find?_some hfind
    simpa using this

/-- C5 (amended): `android:hasCode` and `android:debuggable` are parsed
with Go's `strconv.ParseBool`, which accepts exactly the twelve literals
`1 t T TRUE true True 0 f F FALSE false False` (not just `true`/`false`);
an accepted value flows into `getAttr`'s boolean result and serializes as
type tag 0x12 with 32-bit data 1 or 0, a rejected value surfaces the parse
error, which `binaryXML` wraps with the source line and the attribute
local name. -/
theorem c5_bool_attrs_parsebool :
    (∀ v : String,
        (∃ b, goParseBool v = Except.ok b) ↔
          (v = "1" ∨ v = "t" ∨ v = "T" ∨ v = "TRUE" ∨ v = "true" ∨ v = "True" ∨
            v = "0" ∨ v = "f" ∨ v = "F" ∨ v = "FALSE" ∨ v = "false" ∨ v = "False")) ∧
    (∀ (p : List BString) (s v : String), s = "hasCode" ∨ s = "debuggable" →
      (∀ b, goParseBool v = Except.ok b →
        (getAttr p ⟨androidNS, s, v⟩).2 =
          Except.ok ⟨(poolGet p androidNS).2, (poolGet (poolGet p androidNS).1 s).2,
            AttrData.bool b⟩) ∧
      (∀ e, goParseBool v = Except.error e →
        (getAttr p ⟨androidNS, s, v⟩).2 = Except.error e)) ∧
    (∀ (line : Nat) (s : String) (e : GoErr),
        errWrap line s e = toString line ++ ": " ++ s ++ ": " ++ showErr e) ∧
    (∀ (bs : List Nat) (n1 n2 : BString) (b : Bool),
        binAttrAppend bs ⟨n1, n2, AttrData.bool b⟩ =
          some (appendU16 (appendU16 (appendU32 (appendU32 (appendU32 bs n1.ind)
              n2.ind) 4294967295) 8) 0 ++ [18, if b then 1 else 0, 0, 0, 0])) := by
  refine ⟨?_, ?_, fun line s e => rfl, ?_⟩
  · intro v
    constructor
    · rintro ⟨b, hb⟩
      unfold goParseBool at hb
      split at hb
      all_goals tauto
    · intro h
      rcases h with rfl | rfl | rfl | rfl | rfl | rfl | rfl | rfl | rfl | rfl | rfl | rfl <;>
        exact ⟨_, rfl⟩
  · intro p s v hs
    rcases hs with rfl | rfl <;>
      exact ⟨fun b hb => by simp only [getAttr, hb]; rw [if_neg (fun hh => hh rfl)],
        fun e he => by simp only [getAttr, he]; rw [if_neg (fun hh => hh rfl)]⟩
  · intro bs n1 n2 b
    cases b <;> simp [binAttrAppend, appendU16, appendU32, List.append_assoc]

/-- Witness for C5 (amended): `android:debuggable="1"` — a value outside
the strict `true`/`false` pair — is accepted as boolean true. -/
theorem c5_bool_attrs_parsebool_witness :
    (getAttr [] ⟨androidNS, "debuggable", "1"⟩).2 =
      Except.ok ⟨(poolGet [] androidNS).2,
        (poolGet (poolGet [] androidNS).1 "debuggable").2, AttrData.bool true⟩ :=
  (c5_bool_attrs_parsebool.2.1 [] "debuggable" "1" (Or.inr rfl)).1 true rfl

theorem poolGetP_str (p : List BString) (s : String) (r : List BString × BString)
    (h : poolGetP p s = some r) : r.2.str = s := by
  unfold poolGetP at h
  cases hfind : p.find? (fun b => b.str == s) with
  | some b =>
    rw [hfind] at h
    have h2 : some (p, b) = some r := h
    injection h2 with h3
    subst h3
    have := List.find?_some hfind
    simpa using this
  | none =>
    rw [hfind] at h
    have h2 : (if panicCond s then none
        else some (p ++ [⟨p.length, s, encodeStr s⟩], ⟨p.length, s, encodeStr s⟩)) =
          some r := h
    cases hpc : panicCond s with
    | true => rw [hpc] at h2; simp at h2
    | false =>
      rw [hpc] at h2
      simp only [Bool.false_eq_true, if_false] at h2
      injection h2 with h3
      subst h3
      rfl

theorem poolGetP_of_not_panic (p : List BString) (s : String)
    (h : panicCond s = false) : ∃ r, poolGetP p s = some r := by
  cases hfind : p.find? (fun b => b.str == s) with
  | some b =>
    refine ⟨(p, b), ?_⟩
    unfold poolGetP
    rw [hfind]
  | none =>
    refine ⟨(p ++ [⟨p.length, s, encodeStr s⟩], ⟨p.length, s, encodeStr s⟩), ?_⟩
    unfold poolGetP
    rw [hfind]
    simp [h]

/-- `getAttr` crashes when interning the value of a non-Android attribute
crashes (helper for the C10 counterexample, stated over abstract strings). -/
theorem getAttrP_val_crash (p : List BString) (sp nm v : String)
    (hs : sp ≠ androidNS) (r1 : List BString × BString)
    (hr1 : poolGetP p sp = some r1) (r2 : List BString × BString)
    (hr2 : poolGetP r1.1 nm = some r2)
    (hv : poolGetP r2.1 v = none) :
    getAttrP p ⟨sp, nm, v⟩ = none := by
  simp only [getAttrP, hr1, hr2]
  rw [if_pos hs]
  simp [hv]

/-- C10 counterexample: classifying the non-Android attribute
`package="<65536 a's>"` does not succeed: `binStringPool.get` hits its
panic branch on the value (65536 UTF-8 bytes, `len>>16 = 1`), so `getAttr`
crashes (`none`) instead of returning a `binAttr` with a nil error. -/
theorem c10_counterexample_long_value :
    getAttrP [] ⟨"", "package", String.mk (List.replicate 65536 'a')⟩ = none := by
  have hpc : panicCond (String.mk (List.replicate 65536 'a')) = true := by
    unfold panicCond
    rw [goLen_replicate]
    decide
  have hfind : ([⟨0, "", encodeStr ""⟩, ⟨1, "package", encodeStr "package"⟩] :
      List BString).find?
        (fun b => b.str == String.mk (List.replicate 65536 'a')) = none := by
    decide
  have hval : poolGetP [⟨0, "", encodeStr ""⟩, ⟨1, "package", encodeStr "package"⟩]
      (String.mk (List.replicate 65536 'a')) = none := by
    unfold poolGetP
    rw [hfind, hpc]
    rfl
  exact getAttrP_val_crash [] "" "package" (String.mk (List.replicate 65536 'a'))
    (by decide)
    ([⟨0, "", encodeStr ""⟩], ⟨0, "", encodeStr ""⟩) rfl
    ([⟨0, "", encodeStr ""⟩, ⟨1, "package", encodeStr "package"⟩],
      ⟨1, "package", encodeStr "package"⟩) rfl hval

/-- C10 (amended): for a non-Android-namespace attribute, `getAttr` never
returns an error value: it either interns the value and succeeds as a
string reference, or crashes in `binStringPool.get`'s panic; whenever
namespace, name and value are each below 2^16 UTF-8 bytes it succeeds
outright.  A returned parse error implies the Android namespace and local
name `versionCode`, `minSdkVersion`, `hasCode` or `debuggable`. -/
theorem c10_getAttr_crash_or_string :
    (∀ (p : List BString) (a : XmlAttr), a.space ≠ androidNS →
        getAttrP p a = none ∨
          ∃ q n1 n2 v, getAttrP p a = some (q, Except.ok ⟨n1, n2, AttrData.str v⟩) ∧
            v.str = a.value) ∧
    (∀ (p : List BString) (a : XmlAttr), a.space ≠ androidNS →
        panicCond a.space = false → panicCond a.localName = false →
        panicCond a.value = false →
        ∃ q n1 n2 v, getAttrP p a = some (q, Except.ok ⟨n1, n2, AttrData.str v⟩) ∧
          v.str = a.value) ∧
    (∀ (p : List BString) (a : XmlAttr) (e : GoErr),
        Option.map Prod.snd (getAttrP p a) = some (Except.error e) →
        a.space = androidNS ∧
          (a.localName = "versionCode" ∨ a.localName = "minSdkVersion" ∨
            a.localName = "hasCode" ∨ a.localName = "debuggable")) := by
  refine ⟨?_, ?_, ?_⟩
  · intro p a hs
    cases hsp : poolGetP p a.space with
    | none => exact Or.inl (by simp [getAttrP, hsp])
    | some r1 =>
      cases hnm : poolGetP r1.1 a.localName with
      | none => exact Or.inl (by simp [getAttrP, hsp, hnm])
      | some r2 =>
        cases hval : poolGetP r2.1 a.value with
        | none =>
          refine Or.inl ?_
          simp only [getAttrP, hsp, hnm]
          rw [if_pos hs]
          simp [hval]
        | some r3 =>
          refine Or.inr ⟨r3.1, r1.2, r2.2, r3.2, ?_, poolGetP_str _ _ _ hval⟩
          simp only [getAttrP, hsp, hnm]
          rw [if_pos hs]
          simp [hval]
  · intro p a hs h1 h2 h3
    obtain ⟨r1, hr1⟩ := poolGetP_of_not_panic p a.space h1
    obtain ⟨r2, hr2⟩ := poolGetP_of_not_panic r1.1 a.localName h2
    obtain ⟨r3, hr3⟩ := poolGetP_of_not_panic r2.1 a.value h3
    refine ⟨r3.1, r1.2, r2.2, r3.2, ?_, poolGetP_str _ _ _ hr3⟩
    simp only [getAttrP, hr1, hr2]
    rw [if_pos hs]
    simp [hr3]
  · intro p a e h
    simp only [getAttrP] at h
    split at h
    · simp at h
    · split at h
      · simp at h
      · by_cases hs : a.space ≠ androidNS
        · rw [if_pos hs] at h
          split at h
          · simp at h
          · simp at h
        · have hs2 : a.space = androidNS := not_not.mp hs
          refine ⟨hs2, ?_⟩
          rw [if_neg hs] at h
          split at h
          · next _ heq => exact Or.inl heq
          · next _ heq => exact Or.inr (Or.inl heq)
          · next _ heq => exact Or.inr (Or.inr (Or.inl heq))
          · next _ heq => exact Or.inr (Or.inr (Or.inr heq))
          · simp at h
          · split at h
            · simp at h
            · simp at h

/-- Witness for C10 (amended): `package="x"` (all strings short) succeeds
as a string reference, and the error value returned for
`android:versionCode="x1"` arises at one of the four typed names. -/
theorem c10_getAttr_crash_or_string_witness :
    (∃ q n1 n2 v,
        getAttrP [] ⟨"", "package", "x"⟩ = some (q, Except.ok ⟨n1, n2, AttrData.str v⟩) ∧
          v.str = "x") ∧
    ((⟨androidNS, "versionCode", "x1"⟩ : XmlAttr).space = androidNS ∧
      ((⟨androidNS, "versionCode", "x1"⟩ : XmlAttr).localName = "versionCode" ∨
        (⟨androidNS, "versionCode", "x1"⟩ : XmlAttr).localName = "minSdkVersion" ∨
        (⟨androidNS, "versionCode", "x1"⟩ : XmlAttr).localName = "hasCode" ∨
        (⟨androidNS, "versionCode", "x1"⟩ : XmlAttr).localName = "debuggable")) :=
  ⟨c10_getAttr_crash_or_string.2.1 [] ⟨"", "package", "x"⟩ (by decide) (by decide)
      (by decide) (by decide),
    c10_getAttr_crash_or_string.2.2 [] ⟨androidNS, "versionCode", "x1"⟩
      (GoErr.atoiBad "x1") (by decide)⟩
